import Mathlib

/-!
Shallow embedding of the core of the ncview terminal file browser
(src/ncview), together with theorems checking the natural-language
specification against it.

Conventions used throughout:
* Python strings are embedded as `List Char`; `pstr` turns a Lean string
  literal into that representation.  Python string comparison is the
  lexicographic order on `List Char` by code point, which is the order
  Mathlib puts on `List Char`.
* Python `str.lower` becomes `toLowerL` (character-wise `Char.toLower`).
* Filesystem paths are lists of components (`List (List Char)`); the
  filesystem root is the empty list.  All paths handled by the browser are
  absolute (FileBrowser.__init__ and _navigate_to call Path.absolute()).
* `os.stat` results that may be unavailable (OSError swallowed by the
  code) are embedded as `Option`.
* Fallible filesystem mutations take an oracle (`List Bool`): each
  mutating primitive consumes one entry, `false` meaning the underlying
  OS call raised OSError.  An exhausted oracle means success.
-/

def pstr (s : String) : List Char := s.data

def toLowerL (cs : List Char) : List Char := cs.map Char.toLower

/-- One filesystem entry as seen by FileBrowser._load_directory: the name,
the cached is_dir partition bit, and the stat-derived size and mtime
(absent when the stat call failed).  Mirrors the data flowing out of
os.scandir in src/ncview/widgets/file_browser.py lines 180-234. -/
structure Entry where
  name : List Char
  isDir : Bool
  size : Option Nat
  mtime : Option Int
deriving DecidableEq, Repr

/-- The three sort modes of FileBrowser (SortKey enum, file_browser.py
lines 23-26). -/
inductive SortKey
  | name
  | size
  | modified
deriving DecidableEq, Repr

/-- Sort key for SortKey.NAME: entry.name.lower()
(file_browser.py line 217). -/
def nameKey (e : Entry) : List Char := toLowerL e.name

/-- Sort key for SortKey.SIZE: st.st_size if st else 0
(file_browser.py line 213). -/
def sizeKey (e : Entry) : Nat := e.size.getD 0

/-- Sort key for SortKey.MODIFIED: -st.st_mtime if st else 0
(file_browser.py line 216). -/
def mtimeKey (e : Entry) : Int :=
  match e.mtime with
  | some t => -t
  | none => 0

/-- The comparison used by Python list.sort(key=_sort_func) for each sort
mode: compare the per-mode keys (file_browser.py lines 210-220). -/
def entryLE : SortKey → Entry → Entry → Prop
  | SortKey.name => fun a b => nameKey a ≤ nameKey b
  | SortKey.size => fun a b => sizeKey a ≤ sizeKey b
  | SortKey.modified => fun a b => mtimeKey a ≤ mtimeKey b

instance entryLEDec : (k : SortKey) → DecidableRel (entryLE k)
  | SortKey.name => fun a b => inferInstanceAs (Decidable (nameKey a ≤ nameKey b))
  | SortKey.size => fun a b => inferInstanceAs (Decidable (sizeKey a ≤ sizeKey b))
  | SortKey.modified => fun a b => inferInstanceAs (Decidable (mtimeKey a ≤ mtimeKey b))

instance entryLETotal (k : SortKey) : IsTotal Entry (entryLE k) :=
  ⟨by cases k <;> intro a b <;> simp only [entryLE] <;> exact le_total _ _⟩

instance entryLETrans (k : SortKey) : IsTrans Entry (entryLE k) :=
  ⟨by cases k <;> intro a b c <;> simp only [entryLE] <;> exact le_trans⟩

/-- The sorter of _load_directory (file_browser.py lines 188-225): the
scan is partitioned into directory entries and file entries (in scan
order), each partition is sorted by the active key with the stable Python
list.sort (embedded as the stable insertion sort), and the results are
concatenated directories first. -/
def sortEntries (k : SortKey) (l : List Entry) : List Entry :=
  List.insertionSort (entryLE k) (l.filter (fun e => e.isDir))
    ++ List.insertionSort (entryLE k) (l.filter (fun e => !e.isDir))

/-!  DirectoryScanner generations (C1).

FileBrowser keeps a single counter self._load_gen.  _load_directory
(file_browser.py lines 174-242) increments it and captures the new value
before doing any I/O; when the scan finishes it delivers the result
together with the captured generation.  The delivery (_populate_list,
lines 277-289) applies the result only when the captured generation still
equals the current counter; otherwise it returns without touching any
state.  The state below carries the counter and the currently displayed
listing tagged with the generation that produced it. -/
structure ScanState where
  loadGen : Nat
  displayed : Option (Nat × List Entry)
deriving DecidableEq, Repr

/-- Start of _load_directory: self._load_gen += 1; gen = self._load_gen.
Returns the new state and the captured generation. -/
def requestScan (s : ScanState) : ScanState × Nat :=
  ({ s with loadGen := s.loadGen + 1 }, s.loadGen + 1)

/-- Delivery of a finished scan (the gen check at file_browser.py lines
240-241 and 287-288): the result is applied only when the captured
generation equals the current counter; a stale result changes nothing. -/
def deliverScan (s : ScanState) (gen : Nat) (res : List Entry) : ScanState :=
  if gen = s.loadGen then { s with displayed := some (gen, res) } else s

/-- C1: every scan captures a strictly increasing generation at its start;
a delivery is applied only when its captured generation is still the
newest requested one; in the two-scan race g1 < g2 with g1 delivered
last, the late delivery is discarded without any state change and the
displayed listing reflects g2 only. -/
theorem scan_generation_race
    (s : ScanState) (g : Nat) (r L1 L2 : List Entry) :
    ((requestScan s).2 = s.loadGen + 1 ∧ (requestScan s).1.loadGen = s.loadGen + 1)
    ∧ (g ≠ s.loadGen → deliverScan s g r = s)
    ∧ (g = s.loadGen → (deliverScan s g r).displayed = some (g, r))
    ∧ ((requestScan s).2 < (requestScan (requestScan s).1).2
       ∧ deliverScan (deliverScan (requestScan (requestScan s).1).1
             (requestScan (requestScan s).1).2 L2) (requestScan s).2 L1
          = deliverScan (requestScan (requestScan s).1).1
             (requestScan (requestScan s).1).2 L2
       ∧ (deliverScan (deliverScan (requestScan (requestScan s).1).1
             (requestScan (requestScan s).1).2 L2) (requestScan s).2 L1).displayed
          = some ((requestScan (requestScan s).1).2, L2)) := by
  refine ⟨⟨rfl, rfl⟩, ?_, ?_, ?_, ?_, ?_⟩
  · intro h
    simp [deliverScan, h]
  · intro h
    simp [deliverScan, h]
  · simp [requestScan]
  · simp [requestScan, deliverScan]
  · simp [requestScan, deliverScan]

/-- Witness for scan_generation_race at a concrete state. -/
theorem scan_generation_race_witness :
    deliverScan { loadGen := 5, displayed := none } 4 [] =
      { loadGen := 5, displayed := none } :=
  (scan_generation_race { loadGen := 5, displayed := none } 4 [] [] []).2.1
    (by decide)

/-!  Sorter lemmas (C2). -/

theorem mem_insertionSort_iff {k : SortKey} {l : List Entry} {a : Entry} :
    a ∈ List.insertionSort (entryLE k) l ↔ a ∈ l :=
  (List.perm_insertionSort _ l).mem_iff

theorem pairwise_dirRel_of_all_dir {seg : List Entry}
    (h : ∀ a ∈ seg, a.isDir = true) :
    seg.Pairwise (fun a b => b.isDir = true → a.isDir = true) := by
  induction seg with
  | nil => exact List.Pairwise.nil
  | cons a t ih =>
      refine List.Pairwise.cons (fun b _ _ => h a (by simp)) (ih ?_)
      intro x hx
      exact h x (List.mem_cons_of_mem a hx)

theorem pairwise_dirRel_of_all_file {seg : List Entry}
    (h : ∀ a ∈ seg, a.isDir = false) :
    seg.Pairwise (fun a b => b.isDir = true → a.isDir = true) := by
  induction seg with
  | nil => exact List.Pairwise.nil
  | cons a t ih =>
      refine List.Pairwise.cons (fun b hb hbd => ?_) (ih ?_)
      · exact absurd hbd (by simp [h b (List.mem_cons_of_mem a hb)])
      · intro x hx
        exact h x (List.mem_cons_of_mem a hx)

theorem sortEntries_mem_dirs {k : SortKey} {l : List Entry} {a : Entry}
    (ha : a ∈ List.insertionSort (entryLE k) (l.filter (fun e => e.isDir))) :
    a.isDir = true :=
  (List.mem_filter.mp (mem_insertionSort_iff.mp ha)).2

theorem sortEntries_mem_files {k : SortKey} {l : List Entry} {a : Entry}
    (ha : a ∈ List.insertionSort (entryLE k) (l.filter (fun e => !e.isDir))) :
    a.isDir = false := by
  have := (List.mem_filter.mp (mem_insertionSort_iff.mp ha)).2
  simpa using this

/-- C2 (amended): the sorter returns a permutation of the scan in which
every directory precedes every file; each partition is the stable sort of
the corresponding filtered sublist by the active key and is ordered by
that key; name ordering is case-insensitive lexical; size ordering is
ascending with a missing size treated as 0; modified-time ordering is
descending; a missing timestamp is treated as timestamp 0 (the epoch
key), so when every determined timestamp is positive the entries with a
missing timestamp sort last within their partition (with a timestamp of
exactly 0 they tie and can stay in front). -/
theorem sorter_contract :
    (∀ k l, (sortEntries k l).Perm l)
    ∧ (∀ k l, (sortEntries k l).Pairwise
        (fun a b => b.isDir = true → a.isDir = true))
    ∧ (∀ k l,
        (sortEntries k l).filter (fun e => e.isDir)
          = List.insertionSort (entryLE k) (l.filter (fun e => e.isDir))
        ∧ (sortEntries k l).filter (fun e => !e.isDir)
          = List.insertionSort (entryLE k) (l.filter (fun e => !e.isDir))
        ∧ List.Sorted (entryLE k) ((sortEntries k l).filter (fun e => e.isDir))
        ∧ List.Sorted (entryLE k) ((sortEntries k l).filter (fun e => !e.isDir)))
    ∧ (∀ a b, entryLE SortKey.name a b ↔ toLowerL a.name ≤ toLowerL b.name)
    ∧ ((∀ a b, entryLE SortKey.size a b ↔ a.size.getD 0 ≤ b.size.getD 0)
        ∧ (∀ e, e.size = none → sizeKey e = 0))
    ∧ (∀ a b ta tb, a.mtime = some ta → b.mtime = some tb →
        (entryLE SortKey.modified a b ↔ tb ≤ ta))
    ∧ (∀ e, e.mtime = none → mtimeKey e = 0)
    ∧ (∀ l, (∀ e ∈ l, ∀ t, e.mtime = some t → 0 < t) →
        (List.insertionSort (entryLE SortKey.modified) l).Pairwise
          (fun a b => a.mtime = none → b.mtime = none)) := by
  have hfilter : ∀ (k : SortKey) (l : List Entry),
      (sortEntries k l).filter (fun e => e.isDir)
        = List.insertionSort (entryLE k) (l.filter (fun e => e.isDir))
      ∧ (sortEntries k l).filter (fun e => !e.isDir)
        = List.insertionSort (entryLE k) (l.filter (fun e => !e.isDir)) := by
    intro k l
    have h1 : (List.insertionSort (entryLE k)
          (l.filter (fun e => e.isDir))).filter (fun e => e.isDir)
        = List.insertionSort (entryLE k) (l.filter (fun e => e.isDir)) :=
      List.filter_eq_self.mpr (fun a ha => sortEntries_mem_dirs (l := l) ha)
    have h2 : (List.insertionSort (entryLE k)
          (l.filter (fun e => !e.isDir))).filter (fun e => e.isDir) = [] :=
      List.filter_eq_nil_iff.mpr
        (fun a ha => by simp [sortEntries_mem_files (l := l) (k := k) ha])
    have h3 : (List.insertionSort (entryLE k)
          (l.filter (fun e => e.isDir))).filter (fun e => !e.isDir) = [] :=
      List.filter_eq_nil_iff.mpr
        (fun a ha => by simp [sortEntries_mem_dirs (l := l) (k := k) ha])
    have h4 : (List.insertionSort (entryLE k)
          (l.filter (fun e => !e.isDir))).filter (fun e => !e.isDir)
        = List.insertionSort (entryLE k) (l.filter (fun e => !e.isDir)) :=
      List.filter_eq_self.mpr
        (fun a ha => by simp [sortEntries_mem_files (l := l) (k := k) ha])
    constructor
    · rw [sortEntries, List.filter_append, h1, h2, List.append_nil]
    · rw [sortEntries, List.filter_append, h3, h4, List.nil_append]
  refine ⟨?_, ?_, ?_, ?_, ⟨?_, ?_⟩, ?_, ?_, ?_⟩
  · intro k l
    exact ((List.perm_insertionSort _ _).append
      (List.perm_insertionSort _ _)).trans (List.filter_append_perm _ l)
  · intro k l
    rw [sortEntries]
    refine List.pairwise_append.mpr ⟨?_, ?_, ?_⟩
    · exact pairwise_dirRel_of_all_dir (fun a ha => sortEntries_mem_dirs ha)
    · exact pairwise_dirRel_of_all_file (fun a ha => sortEntries_mem_files ha)
    · exact fun a ha b _ _ => sortEntries_mem_dirs ha
  · intro k l
    refine ⟨(hfilter k l).1, (hfilter k l).2, ?_, ?_⟩
    · rw [(hfilter k l).1]
      exact List.sorted_insertionSort _ _
    · rw [(hfilter k l).2]
      exact List.sorted_insertionSort _ _
  · intro a b
    simp [entryLE, nameKey]
  · intro a b
    simp [entryLE, sizeKey]
  · intro e he
    simp [sizeKey, he]
  · intro a b ta tb ha hb
    simp only [entryLE, mtimeKey, ha, hb]
    omega
  · intro e he
    simp [mtimeKey, he]
  · intro l hpos
    have hs := List.sorted_insertionSort (entryLE SortKey.modified) l
    refine List.Pairwise.imp_of_mem (fun {a b} ha hb hab hnone => ?_) hs
    cases hbm : b.mtime with
    | none => rfl
    | some tb =>
        exfalso
        have hbl : b ∈ l := mem_insertionSort_iff.mp hb
        have htb : 0 < tb := hpos b hbl tb hbm
        have : mtimeKey a ≤ mtimeKey b := hab
        simp only [mtimeKey, hnone, hbm] at this
        omega

/-- Witness for sorter_contract: the descending modified-time comparison
at concrete entries. -/
theorem sorter_contract_witness :
    entryLE SortKey.modified
      { name := pstr "new", isDir := false, size := none, mtime := some 9 }
      { name := pstr "old", isDir := false, size := none, mtime := some 3 } :=
  (sorter_contract.2.2.2.2.2.1
    { name := pstr "new", isDir := false, size := none, mtime := some 9 }
    { name := pstr "old", isDir := false, size := none, mtime := some 3 }
    9 3 rfl rfl).mpr (by decide)

/-- C2 counterexample: under the modified-time sort the code keys a
missing timestamp as 0, exactly the key of an epoch timestamp, and the
stable sort keeps input order on ties.  With a missing-timestamp entry
first and an epoch-timestamped entry second, the missing-timestamp entry
does not sort last: the entry with a determined timestamp follows it. -/
theorem sorter_missing_mtime_not_last :
    sortEntries SortKey.modified
      [{ name := pstr "a", isDir := false, size := none, mtime := none },
       { name := pstr "b", isDir := false, size := none, mtime := some 0 }]
      = [{ name := pstr "a", isDir := false, size := none, mtime := none },
         { name := pstr "b", isDir := false, size := none, mtime := some 0 }]
    ∧ (none : Option Int) ≠ some 0 := by
  constructor
  · decide
  · decide

/-!  ViewerRegistry (C3, C4), from src/ncview/utils/file_types.py.

A registered viewer class is abstracted to its descriptor: the set of
supported extensions (lower-cased, with the leading dot) and the integer
priority.  get_viewer iterates over the registration-ordered list and
keeps the current best, replacing it only on strictly greater priority
(line 32: if p > best_priority), so the first registered wins ties. -/

structure ViewerDesc where
  exts : List (List Char)
  priority : Int
deriving DecidableEq, Repr

/-- One iteration of the loop in ViewerRegistry.get_viewer
(file_types.py lines 29-34). -/
def stepBest (ext : List Char) (best : Option ViewerDesc) (d : ViewerDesc) :
    Option ViewerDesc :=
  if ext ∈ d.exts then
    match best with
    | none => some d
    | some b => if b.priority < d.priority then some d else some b
  else best

/-- The whole loop of get_viewer: fold over registrations starting from
best = None (best_priority = -inf; any priority beats it). -/
def getViewerCore (ext : List Char) (regs : List ViewerDesc) : Option ViewerDesc :=
  regs.foldl (stepBest ext) none

/-- Registered descriptors whose extension set contains ext, in
registration order. -/
def matchingDescs (ext : List Char) (regs : List ViewerDesc) : List ViewerDesc :=
  regs.filter (fun d => decide (ext ∈ d.exts))

/-- The loop restricted to matching descriptors. -/
def pickStep (best : Option ViewerDesc) (d : ViewerDesc) : Option ViewerDesc :=
  match best with
  | none => some d
  | some b => if b.priority < d.priority then some d else some b

theorem foldl_stepBest_eq_pickStep (ext : List Char) :
    ∀ (regs : List ViewerDesc) (acc : Option ViewerDesc),
      regs.foldl (stepBest ext) acc = (matchingDescs ext regs).foldl pickStep acc := by
  intro regs
  induction regs with
  | nil => intro acc; rfl
  | cons d l ih =>
      intro acc
      by_cases hm : ext ∈ d.exts
      · simp only [List.foldl_cons, matchingDescs, List.filter_cons,
          decide_eq_true hm, stepBest, if_pos hm]
        exact ih (pickStep acc d)
      · simp only [List.foldl_cons, matchingDescs, List.filter_cons, stepBest,
          if_neg hm, decide_eq_false hm]
        exact ih acc

theorem foldl_pickStep_some :
    ∀ (l : List ViewerDesc) (b : ViewerDesc),
      ∃ r, l.foldl pickStep (some b) = some r ∧
        ((r = b ∧ ∀ x ∈ l, x.priority ≤ b.priority)
          ∨ ∃ l₁ l₂, l = l₁ ++ r :: l₂ ∧ b.priority < r.priority
              ∧ (∀ x ∈ l₁, x.priority < r.priority)
              ∧ (∀ x ∈ l₂, x.priority ≤ r.priority)) := by
  intro l
  induction l with
  | nil => exact fun b => ⟨b, rfl, Or.inl ⟨rfl, by simp⟩⟩
  | cons d l ih =>
      intro b
      by_cases h : b.priority < d.priority
      · obtain ⟨r, hr, hcase⟩ := ih d
        refine ⟨r, ?_, ?_⟩
        · simpa [pickStep, if_pos h] using hr
        · rcases hcase with ⟨rfl, hall⟩ | ⟨l₁, l₂, heq, hdr, h₁, h₂⟩
          · exact Or.inr ⟨[], l, by simp, h, by simp, hall⟩
          · refine Or.inr ⟨d :: l₁, l₂, by simp [heq], lt_trans h hdr, ?_, h₂⟩
            intro x hx
            rcases List.mem_cons.mp hx with rfl | hx
            · exact hdr
            · exact h₁ x hx
      · obtain ⟨r, hr, hcase⟩ := ih b
        have hd : d.priority ≤ b.priority := le_of_not_lt h
        refine ⟨r, ?_, ?_⟩
        · simpa [pickStep, if_neg h] using hr
        · rcases hcase with ⟨rfl, hall⟩ | ⟨l₁, l₂, heq, hbr, h₁, h₂⟩
          · refine Or.inl ⟨rfl, ?_⟩
            intro x hx
            rcases List.mem_cons.mp hx with rfl | hx
            · exact hd
            · exact hall x hx
          · refine Or.inr ⟨d :: l₁, l₂, by simp [heq], hbr, ?_, h₂⟩
            intro x hx
            rcases List.mem_cons.mp hx with rfl | hx
            · exact lt_of_le_of_lt hd hbr
            · exact h₁ x hx

theorem getViewerCore_char (ext : List Char) (regs : List ViewerDesc)
    (h : matchingDescs ext regs ≠ []) :
    ∃ d l₁ l₂, getViewerCore ext regs = some d
      ∧ matchingDescs ext regs = l₁ ++ d :: l₂
      ∧ (∀ x ∈ l₁, x.priority < d.priority)
      ∧ (∀ x ∈ l₂, x.priority ≤ d.priority) := by
  rw [getViewerCore, foldl_stepBest_eq_pickStep]
  obtain ⟨m, rest, hm⟩ := List.exists_cons_of_ne_nil h
  rw [hm, List.foldl_cons]
  show ∃ d l₁ l₂, rest.foldl pickStep (pickStep none m) = some d ∧ _
  obtain ⟨r, hr, hcase⟩ := foldl_pickStep_some rest m
  rcases hcase with ⟨rfl, hall⟩ | ⟨l₁, l₂, heq, hmr, h₁, h₂⟩
  · exact ⟨r, [], rest, hr, by simp, by simp, hall⟩
  · refine ⟨r, m :: l₁, l₂, hr, by simp [heq], ?_, h₂⟩
    intro x hx
    rcases List.mem_cons.mp hx with rfl | hx
    · exact hmr
    · exact h₁ x hx

theorem getViewerCore_some_mem {ext : List Char} {regs : List ViewerDesc}
    {d : ViewerDesc} (h : getViewerCore ext regs = some d) :
    d ∈ regs ∧ ext ∈ d.exts := by
  by_cases hne : matchingDescs ext regs = []
  · rw [getViewerCore, foldl_stepBest_eq_pickStep, hne] at h
    exact absurd h (by simp)
  · obtain ⟨d', l₁, l₂, hd', hdec, _, _⟩ := getViewerCore_char ext regs hne
    rw [h] at hd'
    obtain rfl : d = d' := by injection hd'
    have hmem : d ∈ matchingDescs ext regs := by
      rw [hdec]; exact List.mem_append_right _ (List.mem_cons_self _ _)
    have := List.mem_filter.mp hmem
    exact ⟨this.1, of_decide_eq_true this.2⟩

/-- Embedding of pathlib PurePath.suffix on a basename: the substring
from the last dot, when that dot is neither the first nor the last
character; otherwise the empty string.  Used by get_viewer via
path.suffix.lower() (file_types.py line 25). -/
def lastIdxOf (c : Char) (cs : List Char) : Option Nat :=
  ((List.range cs.length).filter (fun i => decide (cs.get? i = some c))).getLast?

def pySuffix (cs : List Char) : List Char :=
  match lastIdxOf '.' cs with
  | none => []
  | some i => if 0 < i ∧ i < cs.length - 1 then cs.drop i else []

/-- The extensionless text filenames of file_types.py lines 47-51. -/
def textFilenames : List (List Char) :=
  [pstr "makefile", pstr "dockerfile", pstr "vagrantfile", pstr "gemfile",
   pstr "rakefile", pstr "license", pstr "licence", pstr "readme",
   pstr "changelog", pstr "authors", pstr "contributors", pstr "todo",
   pstr "news", pstr "install", pstr "copying", pstr "notice"]

/-- _is_likely_text (file_types.py lines 54-63): known extensionless text
name, else sniff the first 512 bytes for a null byte; a failed read
(content = none, the OSError branch) is not text. -/
def isLikelyText (name : List Char) (content : Option (List Nat)) : Bool :=
  if toLowerL name ∈ textFilenames then true
  else
    match content with
    | none => false
    | some bs => decide ((0 : Nat) ∉ bs.take 512)

/-- Result of get_viewer: a registered descriptor, the TextViewer chosen
by the heuristic, or the FallbackViewer. -/
inductive ResolvedViewer
  | reg (d : ViewerDesc)
  | text
  | fallback
deriving DecidableEq, Repr

/-- ViewerRegistry.get_viewer (file_types.py lines 23-43), with the file
content that read_bytes would deliver passed in explicitly (none embeds
an OSError on read). -/
def resolveViewer (regs : List ViewerDesc) (name : List Char)
    (content : Option (List Nat)) : ResolvedViewer :=
  match getViewerCore (toLowerL (pySuffix name)) regs with
  | some d => ResolvedViewer.reg d
  | none =>
      if isLikelyText name content then ResolvedViewer.text
      else ResolvedViewer.fallback

/-- The example registration list used by the specification:
Text(prio=-1, ext=.txt), CSV(prio=10, ext=.csv), Fallback(prio=-100,
ext={}). -/
def specRegs : List ViewerDesc :=
  [{ exts := [pstr ".txt"], priority := -1 },
   { exts := [pstr ".csv"], priority := 10 },
   { exts := [], priority := -100 }]

/-- C3: when the lower-cased extension of the path is in the extension
set of at least one registered viewer, resolve returns a matching
registered viewer of maximal priority, and every earlier-registered
matching viewer has strictly smaller priority, so on a priority tie the
first registered wins. -/
theorem viewer_priority_first_registered
    (regs : List ViewerDesc) (name : List Char) (content : Option (List Nat))
    (h : ∃ d0 ∈ regs, toLowerL (pySuffix name) ∈ d0.exts) :
    ∃ d l₁ l₂, resolveViewer regs name content = ResolvedViewer.reg d
      ∧ d ∈ regs ∧ toLowerL (pySuffix name) ∈ d.exts
      ∧ matchingDescs (toLowerL (pySuffix name)) regs = l₁ ++ d :: l₂
      ∧ (∀ x ∈ l₁, x.priority < d.priority)
      ∧ (∀ x ∈ l₂, x.priority ≤ d.priority) := by
  obtain ⟨d0, hd0, hext0⟩ := h
  have hne : matchingDescs (toLowerL (pySuffix name)) regs ≠ [] :=
    List.ne_nil_of_mem (List.mem_filter.mpr ⟨hd0, decide_eq_true hext0⟩)
  obtain ⟨d, l₁, l₂, hcore, hdec, h₁, h₂⟩ :=
    getViewerCore_char (toLowerL (pySuffix name)) regs hne
  have hmem := getViewerCore_some_mem hcore
  exact ⟨d, l₁, l₂, by rw [resolveViewer, hcore], hmem.1, hmem.2, hdec, h₁, h₂⟩

/-- Witness for viewer_priority_first_registered on the example registry
at report.csv. -/
theorem viewer_priority_first_registered_witness :
    ∃ d l₁ l₂, resolveViewer specRegs (pstr "report.csv") none = ResolvedViewer.reg d
      ∧ d ∈ specRegs ∧ toLowerL (pySuffix (pstr "report.csv")) ∈ d.exts
      ∧ matchingDescs (toLowerL (pySuffix (pstr "report.csv"))) specRegs
          = l₁ ++ d :: l₂
      ∧ (∀ x ∈ l₁, x.priority < d.priority)
      ∧ (∀ x ∈ l₂, x.priority ≤ d.priority) :=
  viewer_priority_first_registered specRegs (pstr "report.csv") none
    (by decide)

/-- C4 counterexample: on the example registrations, data.bin matches no
registered extension, yet with readable null-free content the fallback
heuristic classifies it as plain text, so resolve returns the text
viewer rather than the generic fallback the claim promises. -/
theorem viewer_databin_counterexample :
    getViewerCore (toLowerL (pySuffix (pstr "data.bin"))) specRegs = none
    ∧ resolveViewer specRegs (pstr "data.bin") (some [65]) = ResolvedViewer.text
    ∧ resolveViewer specRegs (pstr "data.bin") (some [65]) ≠ ResolvedViewer.fallback := by
  refine ⟨by decide, by decide, by decide⟩

/-- C4 (amended): when no registered descriptor matches the lower-cased
extension, resolve returns the text viewer exactly when the bare
lower-cased filename is a known extensionless text name or the readable
first 512 bytes contain no null byte, and the metadata-only fallback
viewer otherwise; it always returns one of a matching registered
descriptor, the text viewer, or the fallback viewer; on the example
registrations, data.bin resolves to the fallback viewer exactly when its
content sniff fails or finds a null byte, and to the text viewer when
the sniff finds none. -/
theorem viewer_fallback_heuristic :
    (∀ regs name content,
        getViewerCore (toLowerL (pySuffix name)) regs = none →
        ((resolveViewer regs name content = ResolvedViewer.text
            ↔ isLikelyText name content = true)
          ∧ (resolveViewer regs name content = ResolvedViewer.fallback
            ↔ isLikelyText name content = false)))
    ∧ (∀ name content, isLikelyText name content = true ↔
        (toLowerL name ∈ textFilenames
          ∨ ∃ bs, content = some bs ∧ (0 : Nat) ∉ bs.take 512))
    ∧ (∀ regs name content,
        (∃ d, resolveViewer regs name content = ResolvedViewer.reg d
            ∧ d ∈ regs ∧ toLowerL (pySuffix name) ∈ d.exts)
        ∨ resolveViewer regs name content = ResolvedViewer.text
        ∨ resolveViewer regs name content = ResolvedViewer.fallback)
    ∧ (resolveViewer specRegs (pstr "data.bin") (some [0]) = ResolvedViewer.fallback
        ∧ resolveViewer specRegs (pstr "data.bin") none = ResolvedViewer.fallback
        ∧ resolveViewer specRegs (pstr "notes.txt") none
            = ResolvedViewer.reg { exts := [pstr ".txt"], priority := -1 }) := by
  refine ⟨?_, ?_, ?_, by decide, by decide, by decide⟩
  · intro regs name content h
    rw [resolveViewer, h]
    cases hl : isLikelyText name content <;> simp [hl]
  · intro name content
    rw [isLikelyText.eq_def]
    by_cases hn : toLowerL name ∈ textFilenames
    · simp [hn]
    · cases content with
      | none => simp [hn]
      | some bs => simp [hn]
  · intro regs name content
    rw [resolveViewer]
    cases hcore : getViewerCore (toLowerL (pySuffix name)) regs with
    | some d =>
        have := getViewerCore_some_mem hcore
        exact Or.inl ⟨d, rfl, this.1, this.2⟩
    | none =>
        cases hl : isLikelyText name content <;> simp [hl]

/-- Witness for viewer_fallback_heuristic: the no-match branch applied at
data.bin over the example registry. -/
theorem viewer_fallback_heuristic_witness :
    resolveViewer specRegs (pstr "data.bin") none = ResolvedViewer.fallback
      ↔ isLikelyText (pstr "data.bin") none = false :=
  (viewer_fallback_heuristic.1 specRegs (pstr "data.bin") none (by decide)).2

/-!  SearchIndex (C5, C6), from FileBrowser._on_search_submitted
(file_browser.py lines 443-470).

The handler lowers the submitted text, clears all search state on an
empty query, and otherwise rebuilds the match list: row 0 (the parent
pseudo-entry, present when the current directory is not the root) is
appended when the Python expression (query in "..") holds, i.e. when the
query is a substring of the two-character string ".."; then every entry
whose lowered name contains the query contributes its display row index.
The output record below captures every assignment the handler makes:
the stored query, match list and match cursor, the row the display
cursor is moved to (none when not moved), the status-bar hint update
(none when the handler does not touch it) and whether the subtitle was
rebuilt. -/

def matchIdxs (query : List Char) (offset : Nat) : List Entry → Nat → List Nat
  | [], _ => []
  | e :: es, i =>
      (if query <:+: toLowerL e.name then [i + offset] else [])
        ++ matchIdxs query offset es (i + 1)

structure SubmitOut where
  query : List Char
  matchList : List Nat
  sIndex : Int
  cursorMove : Option Nat
  hintSet : Option Bool
  subtitleRefreshed : Bool
deriving DecidableEq, Repr

def onSearchSubmitted (hasParent : Bool) (entries : List Entry)
    (raw : List Char) : SubmitOut :=
  let query := toLowerL raw
  if query = [] then
    { query := [], matchList := [], sIndex := -1, cursorMove := none,
      hintSet := none, subtitleRefreshed := false }
  else
    let offset : Nat := if hasParent then 1 else 0
    let pm : List Nat := if hasParent ∧ query <:+: pstr ".." then [0] else []
    let ms := pm ++ matchIdxs query offset entries 0
    { query := query, matchList := ms,
      sIndex := if ms = [] then -1 else 0,
      cursorMove := ms.head?,
      hintSet := some (!ms.isEmpty),
      subtitleRefreshed := true }

/-- The substrings of ".." are the empty string, "." and "..". -/
theorem infix_dotdot_iff (q : List Char) :
    q <:+: pstr ".." ↔ (q = [] ∨ q = pstr "." ∨ q = pstr "..") := by
  have hdd : pstr ".." = ['.', '.'] := by decide
  have hd : pstr "." = ['.'] := by decide
  rw [hdd, hd]
  constructor
  · intro h
    have hsub := h.sublist
    have hlen : q.length ≤ 2 := by simpa using hsub.length_le
    have hmem : ∀ c ∈ q, c = '.' := by
      intro c hc
      have hm := hsub.subset hc
      simpa using hm
    match q, hlen with
    | [], _ => exact Or.inl rfl
    | [a], _ =>
        exact Or.inr (Or.inl (by rw [hmem a (by simp)]))
    | [a, b], _ =>
        exact Or.inr (Or.inr
          (by rw [hmem a (by simp), hmem b (by simp)]))
  · rintro (rfl | rfl | rfl)
    · exact List.nil_infix
    · decide
    · decide

theorem matchIdxs_mem (q : List Char) (off : Nat) :
    ∀ (es : List Entry) (i j : Nat),
      j ∈ matchIdxs q off es i
        ↔ ∃ k e, es.get? k = some e ∧ q <:+: toLowerL e.name ∧ j = i + k + off := by
  intro es
  induction es with
  | nil =>
      intro i j
      simp [matchIdxs]
  | cons e es ih =>
      intro i j
      constructor
      · intro hj
        rcases List.mem_append.mp hj with h1 | h2
        · by_cases hc : q <:+: toLowerL e.name
          · rw [if_pos hc] at h1
            have : j = i + off := by simpa using h1
            exact ⟨0, e, rfl, hc, by omega⟩
          · rw [if_neg hc] at h1
            simp at h1
        · obtain ⟨k, e2, hk, hinf, hj2⟩ := (ih (i + 1) j).mp h2
          exact ⟨k + 1, e2, by simpa using hk, hinf, by omega⟩
      · rintro ⟨k, e2, hk, hinf, rfl⟩
        cases k with
        | zero =>
            obtain rfl : e2 = e := by
              have := hk
              simp at this
              exact this.symm
            exact List.mem_append_left _ (by simp [if_pos hinf])
        | succ k =>
            refine List.mem_append_right _ ((ih (i + 1) _).mpr ⟨k, e2, ?_, hinf, by omega⟩)
            simpa using hk

theorem submit_fields (hp : Bool) (entries : List Entry) (raw : List Char)
    (hq : toLowerL raw ≠ []) :
    (onSearchSubmitted hp entries raw).matchList
      = (if hp ∧ toLowerL raw <:+: pstr ".." then [0] else [])
        ++ matchIdxs (toLowerL raw) (if hp then 1 else 0) entries 0
    ∧ (onSearchSubmitted hp entries raw).sIndex
      = (if (onSearchSubmitted hp entries raw).matchList = [] then -1 else 0)
    ∧ (onSearchSubmitted hp entries raw).cursorMove
      = (onSearchSubmitted hp entries raw).matchList.head? := by
  refine ⟨?_, ?_, ?_⟩ <;> simp [onSearchSubmitted, hq]

/-- C5 counterexample: with a parent row present and no other entries,
submitting the query "." selects the parent row (match index 0), even
though "." is not the literal string "..": the code tests the Python
substring relation (query in ".."), not equality. -/
theorem search_parent_dot_counterexample :
    (onSearchSubmitted true [] (pstr ".")).matchList = [0]
    ∧ pstr "." ≠ pstr ".." := by
  refine ⟨by decide, by decide⟩

/-- C5 (amended): for a non-empty query, the parent pseudo-entry (row 0)
matches exactly when the lowered query is a substring of "..", that is,
when it is "." or ".."; ordinary entries match by case-insensitive
substring on their name, entry i appearing as row i plus the parent
offset. -/
theorem search_parent_substring_matching :
    (∀ (entries : List Entry) (raw : List Char), toLowerL raw ≠ [] →
        (0 ∈ (onSearchSubmitted true entries raw).matchList
          ↔ (toLowerL raw = pstr "." ∨ toLowerL raw = pstr "..")))
    ∧ (∀ (hp : Bool) (entries : List Entry) (raw : List Char) (i : Nat),
        toLowerL raw ≠ [] →
        ((i + (if hp then 1 else 0)) ∈ (onSearchSubmitted hp entries raw).matchList
          ↔ ∃ e, entries.get? i = some e ∧ toLowerL raw <:+: toLowerL e.name)) := by
  constructor
  · intro entries raw hq
    rw [(submit_fields true entries raw hq).1]
    constructor
    · intro h
      rcases List.mem_append.mp h with h1 | h2
      · by_cases hin : toLowerL raw <:+: pstr ".."
        · rcases (infix_dotdot_iff _).mp hin with h0 | h0 | h0
          · exact absurd h0 hq
          · exact Or.inl h0
          · exact Or.inr h0
        · rw [if_neg (by simp [hin])] at h1
          simp at h1
      · obtain ⟨k, e, _, _, hk⟩ := (matchIdxs_mem _ _ entries 0 0).mp h2
        simp at hk
    · intro hcase
      have hin : toLowerL raw <:+: pstr ".." := (infix_dotdot_iff _).mpr (Or.inr hcase)
      exact List.mem_append_left _ (by simp [hin])
  · intro hp entries raw i hq
    rw [(submit_fields hp entries raw hq).1]
    constructor
    · intro h
      rcases List.mem_append.mp h with h1 | h2
      · cases hp with
        | false => simp at h1
        | true =>
            have : i + 1 = 0 := by
              by_cases hin : toLowerL raw <:+: pstr ".."
              · simp [hin] at h1
              · simp [hin] at h1
            omega
      · obtain ⟨k, e, hk, hinf, hik⟩ := (matchIdxs_mem _ _ entries 0 _).mp h2
        have : k = i := by cases hp <;> simp at hik ⊢ <;> omega
        subst this
        exact ⟨e, hk, hinf⟩
    · rintro ⟨e, hk, hinf⟩
      refine List.mem_append_right _
        ((matchIdxs_mem _ _ entries 0 _).mpr ⟨i, e, hk, hinf, by cases hp <;> simp⟩)

/-- Witness for search_parent_substring_matching: the parent row matches
the literal query ".." . -/
theorem search_parent_substring_matching_witness :
    0 ∈ (onSearchSubmitted true [] (pstr "..")).matchList
      ↔ (toLowerL (pstr "..") = pstr "." ∨ toLowerL (pstr "..") = pstr "..") :=
  search_parent_substring_matching.1 [] (pstr "..") (by decide)

/-- C6: submitting the empty query resets the stored query, the match
list and the match cursor, moves no display cursor, and touches neither
the hint nor the subtitle; any submission producing no match leaves the
match cursor at -1 and does not move the display cursor. -/
theorem search_empty_and_no_match :
    (∀ (hp : Bool) (entries : List Entry),
        onSearchSubmitted hp entries [] =
          { query := [], matchList := [], sIndex := -1, cursorMove := none,
            hintSet := none, subtitleRefreshed := false })
    ∧ (∀ (hp : Bool) (entries : List Entry) (raw : List Char),
        (onSearchSubmitted hp entries raw).matchList = [] →
        ((onSearchSubmitted hp entries raw).sIndex = -1
          ∧ (onSearchSubmitted hp entries raw).cursorMove = none)) := by
  constructor
  · intro hp entries
    rfl
  · intro hp entries raw h
    by_cases hq : toLowerL raw = []
    · have : onSearchSubmitted hp entries raw =
          { query := [], matchList := [], sIndex := -1, cursorMove := none,
            hintSet := none, subtitleRefreshed := false } := by
        simp [onSearchSubmitted, hq]
      rw [this]
      exact ⟨rfl, rfl⟩
    · obtain ⟨-, h2, h3⟩ := submit_fields hp entries raw hq
      rw [h2, h3, h]
      exact ⟨by simp, rfl⟩

/-- Witness for search_empty_and_no_match: the no-match query zzz over an
empty listing. -/
theorem search_empty_and_no_match_witness :
    (onSearchSubmitted false [] (pstr "zzz")).sIndex = -1
    ∧ (onSearchSubmitted false [] (pstr "zzz")).cursorMove = none :=
  search_empty_and_no_match.2 false [] (pstr "zzz") (by decide)

/-!  Parent pseudo-entry of _populate_list (C9), file_browser.py lines
300-307: when the current directory differs from its filesystem root a
".." row is added before any entry row, and the path map sends ".." to
current_dir.parent.  Directories are component lists; the root is [] and
Path.parent is dropLast. -/

def populateKeys (cur : List (List Char)) (entries : List Entry) :
    List (List Char) :=
  (if cur = [] then [] else [pstr ".."]) ++ entries.map (fun e => e.name)

def parentTarget (cur : List (List Char)) : Option (List (List Char)) :=
  if cur = [] then none else some cur.dropLast

/-- C9: the ".." pseudo-entry is present exactly when the current
directory is not the filesystem root, it is then the first row, and it
maps to the parent of the current directory (os.scandir never yields an
entry literally named "..", hence the hypothesis on entry names). -/
theorem parent_row_iff_not_root
    (cur : List (List Char)) (entries : List Entry)
    (h : ∀ e ∈ entries, e.name ≠ pstr "..") :
    ((pstr "..") ∈ populateKeys cur entries ↔ cur ≠ [])
    ∧ (cur ≠ [] → (populateKeys cur entries).head? = some (pstr ".."))
    ∧ (cur ≠ [] → parentTarget cur = some cur.dropLast)
    ∧ (cur = [] → parentTarget cur = none) := by
  refine ⟨⟨?_, ?_⟩, ?_, ?_, ?_⟩
  · intro hmem hcur
    rw [populateKeys, if_pos hcur, List.nil_append] at hmem
    obtain ⟨e, he, hname⟩ := List.mem_map.mp hmem
    exact h e he hname
  · intro hc
    rw [populateKeys, if_neg hc]
    exact List.mem_append_left _ (by simp)
  · intro hc
    rw [populateKeys, if_neg hc]
    rfl
  · intro hc
    rw [parentTarget, if_neg hc]
  · intro hc
    rw [parentTarget, if_pos hc]

/-- Witness for parent_row_iff_not_root in a non-root directory with one
ordinary entry. -/
theorem parent_row_iff_not_root_witness :
    (populateKeys [pstr "home"]
        [{ name := pstr "a", isDir := false, size := none, mtime := none }]).head?
      = some (pstr "..") :=
  (parent_row_iff_not_root [pstr "home"]
      [{ name := pstr "a", isDir := false, size := none, mtime := none }]
      (by decide)).2.1 (by decide)

/-!  Debounced split preview (C7), from src/ncview/app.py lines 126-144.

_on_file_highlighted runs only when split mode is active, no full-screen
preview is open, and the highlighted path is a regular file; it stores
the path in _split_pending_path and starts _debounce_split_preview, an
exclusive worker in group split-preview: starting it cancels any worker
of the group still sleeping.  The state below models the pending path,
the identity of the single live timer (timerToken; a superseded or
completed worker holds a stale token), a token counter, and the list of
content loads performed.  fireTimer is the worker body after its sleep:
it acts only when its token is still the live one, re-checks the guards,
and loads the pending path. -/

structure PreviewState where
  splitView : Bool
  previewOpen : Bool
  pendingPath : Option (List Char)
  timerToken : Option Nat
  nextToken : Nat
  loads : List (List Char)
deriving DecidableEq, Repr

def onHighlighted (fsIsFile : List Char → Bool) (s : PreviewState)
    (p : List Char) : PreviewState :=
  if !s.splitView || s.previewOpen then s
  else if !(fsIsFile p) then s
  else
    { s with pendingPath := some p, timerToken := some s.nextToken,
             nextToken := s.nextToken + 1 }

def fireTimer (fsIsFile : List Char → Bool) (s : PreviewState) (tok : Nat) :
    PreviewState :=
  if s.timerToken = some tok then
    match s.pendingPath with
    | some p =>
        if fsIsFile p && s.splitView && !s.previewOpen then
          { s with timerToken := none, loads := s.loads ++ [p] }
        else { s with timerToken := none }
    | none => { s with timerToken := none }
  else s

def highlight3 (fsIsFile : List Char → Bool) (s : PreviewState)
    (a b c : List Char) : PreviewState :=
  onHighlighted fsIsFile (onHighlighted fsIsFile (onHighlighted fsIsFile s a) b) c

/-- C7: highlighting files a, b, c in immediate succession while in split
mode performs no load by itself; the two superseded timers are no-ops
when they fire; the surviving timer performs exactly one load, of c; and
firing it again changes nothing, so at most one debounced load happens. -/
theorem debounce_coalesces
    (fsIsFile : List Char → Bool) (s : PreviewState) (a b c : List Char)
    (hsplit : s.splitView = true) (hopen : s.previewOpen = false)
    (ha : fsIsFile a = true) (hb : fsIsFile b = true) (hc : fsIsFile c = true) :
    (highlight3 fsIsFile s a b c).loads = s.loads
    ∧ fireTimer fsIsFile (highlight3 fsIsFile s a b c) s.nextToken
        = highlight3 fsIsFile s a b c
    ∧ fireTimer fsIsFile (highlight3 fsIsFile s a b c) (s.nextToken + 1)
        = highlight3 fsIsFile s a b c
    ∧ (fireTimer fsIsFile (highlight3 fsIsFile s a b c) (s.nextToken + 2)).loads
        = s.loads ++ [c]
    ∧ fireTimer fsIsFile
          (fireTimer fsIsFile (highlight3 fsIsFile s a b c) (s.nextToken + 2))
          (s.nextToken + 2)
        = fireTimer fsIsFile (highlight3 fsIsFile s a b c) (s.nextToken + 2) := by
  have hs3 : highlight3 fsIsFile s a b c =
      { s with pendingPath := some c, timerToken := some (s.nextToken + 2),
               nextToken := s.nextToken + 3 } := by
    simp [highlight3, onHighlighted, hsplit, hopen, ha, hb, hc]
  have hne0 : s.nextToken + 2 ≠ s.nextToken := by omega
  have hne1 : s.nextToken + 2 ≠ s.nextToken + 1 := by omega
  refine ⟨by rw [hs3], ?_, ?_, ?_, ?_⟩
  · rw [hs3]
    simp [fireTimer, hne0]
  · rw [hs3]
    simp [fireTimer, hne1]
  · rw [hs3]
    simp [fireTimer, hsplit, hopen, hc]
  · rw [hs3]
    simp [fireTimer, hsplit, hopen, hc]

/-- Witness for debounce_coalesces at a concrete state and paths. -/
theorem debounce_coalesces_witness :
    (fireTimer (fun _ => true)
        (highlight3 (fun _ => true)
          { splitView := true, previewOpen := false, pendingPath := none,
            timerToken := none, nextToken := 0, loads := [] }
          (pstr "a") (pstr "b") (pstr "c")) 2).loads
      = [] ++ [pstr "c"] :=
  (debounce_coalesces (fun _ => true)
      { splitView := true, previewOpen := false, pendingPath := none,
        timerToken := none, nextToken := 0, loads := [] }
      (pstr "a") (pstr "b") (pstr "c") rfl rfl rfl rfl rfl).2.2.2.1

/-!  Mutation handlers (C8, C10), from file_browser.py lines 545-561
(_on_touch_submitted), 583-602 (_on_rename_submitted) and 611-626
(_on_mkdir_submitted).

The filesystem is a finite set of absolute component paths split into
directories and files.  Each handler is modelled from the point where the
submitted text has been stripped and parsed into path components (the
handlers return before any filesystem access when the stripped input is
empty).  Path.mkdir(parents=True) creates every missing ancestor in
root-to-leaf order and does not roll back on a later failure; each
individual creation consults the oracle.  Path.touch and Path.rename are
single OS calls consulting one oracle entry.  A handler result carries
the filesystem afterwards, the notifications it emitted (by severity)
and whether _load_directory was re-triggered. -/

structure FS where
  dirs : List (List (List Char))
  files : List (List (List Char))
deriving DecidableEq, Repr

def fsExists (fs : FS) (p : List (List Char)) : Prop :=
  p ∈ fs.dirs ∨ p ∈ fs.files

instance fsExistsDec (fs : FS) (p : List (List Char)) : Decidable (fsExists fs p) :=
  inferInstanceAs (Decidable (p ∈ fs.dirs ∨ p ∈ fs.files))

inductive Severity
  | information
  | warning
  | error
deriving DecidableEq, Repr

structure MutResult where
  fs : FS
  notes : List Severity
  rescan : Bool
deriving DecidableEq, Repr

/-- The non-empty path components of p in root-to-leaf order. -/
def prefixesOf (p : List (List Char)) : List (List (List Char)) :=
  (List.range p.length).map (fun i => p.take (i + 1))

/-- mkdir(parents=True, exist_ok=True) over an explicit target chain:
skip targets existing as directories, fail on a target existing as a
file (FileExistsError / NotADirectoryError) and on an oracle failure,
keeping every directory already created. -/
def mkdirChain : FS → List Bool → List (List (List Char)) → FS × List Bool × Bool
  | fs, o, [] => (fs, o, true)
  | fs, o, p :: rest =>
      if p ∈ fs.dirs then mkdirChain fs o rest
      else if p ∈ fs.files then (fs, o, false)
      else if o.headD true then
        mkdirChain { fs with dirs := fs.dirs ++ [p] } o.tail rest
      else (fs, o.tail, false)

/-- _on_touch_submitted after input parsing: warn and stop when the path
exists; otherwise path.parent.mkdir(parents=True, exist_ok=True), then
path.touch(), notifying and re-scanning only when both succeed; an
OSError of either call is caught and reported, with no rollback of
already-created parents. -/
def onTouchSubmitted (fs : FS) (o : List Bool) (path : List (List Char)) :
    MutResult :=
  if fsExists fs path then
    { fs := fs, notes := [Severity.warning], rescan := false }
  else
    match mkdirChain fs o (prefixesOf path.dropLast) with
    | (fs1, o1, ok1) =>
        if ok1 then
          if o1.headD true then
            { fs := { fs1 with files := fs1.files ++ [path] },
              notes := [Severity.information], rescan := true }
          else
            { fs := fs1, notes := [Severity.error], rescan := false }
        else
          { fs := fs1, notes := [Severity.error], rescan := false }

/-- os.rename moves the whole subtree rooted at old under new. -/
def movePath (old new p : List (List Char)) : List (List Char) :=
  if old <+: p then new ++ p.drop old.length else p

def renameFS (fs : FS) (old new : List (List Char)) : FS :=
  { dirs := fs.dirs.map (movePath old new),
    files := fs.files.map (movePath old new) }

/-- _on_rename_submitted after input parsing: reject a new name holding a
path separator; warn and stop when the destination exists; otherwise a
single rename call which on failure changes nothing. -/
def onRenameSubmitted (fs : FS) (o : List Bool) (oldPath : List (List Char))
    (newName : List Char) : MutResult :=
  if '/' ∈ newName ∨ '\\' ∈ newName then
    { fs := fs, notes := [Severity.error], rescan := false }
  else if fsExists fs (oldPath.dropLast ++ [newName]) then
    { fs := fs, notes := [Severity.warning], rescan := false }
  else if o.headD true then
    { fs := renameFS fs oldPath (oldPath.dropLast ++ [newName]),
      notes := [Severity.information], rescan := true }
  else
    { fs := fs, notes := [Severity.error], rescan := false }

/-- _on_mkdir_submitted after input parsing: the new path is current_dir
joined with the submitted components (the input may contain separators);
warn and stop when it exists; otherwise mkdir(parents=True), with no
rollback of parents created before a failure. -/
def onMkdirSubmitted (fs : FS) (o : List Bool) (curDir : List (List Char))
    (comps : List (List Char)) : MutResult :=
  if fsExists fs (curDir ++ comps) then
    { fs := fs, notes := [Severity.warning], rescan := false }
  else
    match mkdirChain fs o (prefixesOf (curDir ++ comps)) with
    | (fs1, _, ok) =>
        if ok then
          { fs := fs1, notes := [Severity.information], rescan := true }
        else
          { fs := fs1, notes := [Severity.error], rescan := false }

theorem mkdirChain_shape :
    ∀ (targets : List (List (List Char))) (fs : FS) (o : List Bool),
      (mkdirChain fs o targets).1.files = fs.files
      ∧ ∃ added, (mkdirChain fs o targets).1.dirs = fs.dirs ++ added
          ∧ ∀ d ∈ added, d ∈ targets := by
  intro targets
  induction targets with
  | nil =>
      intro fs o
      exact ⟨rfl, [], by simp [mkdirChain], by simp⟩
  | cons p rest ih =>
      intro fs o
      by_cases h1 : p ∈ fs.dirs
      · obtain ⟨hf, added, hd, hmem⟩ := ih fs o
        have he : mkdirChain fs o (p :: rest) = mkdirChain fs o rest := by
          simp only [mkdirChain, if_pos h1]
        rw [he]
        exact ⟨hf, added, hd, fun d hdm => List.mem_cons_of_mem _ (hmem d hdm)⟩
      · by_cases h2 : p ∈ fs.files
        · have he : mkdirChain fs o (p :: rest) = (fs, o, false) := by
            simp only [mkdirChain, if_neg h1, if_pos h2]
          rw [he]
          exact ⟨rfl, [], by simp, by simp⟩
        · by_cases h3 : o.headD true = true
          · have he : mkdirChain fs o (p :: rest)
                = mkdirChain { fs with dirs := fs.dirs ++ [p] } o.tail rest := by
              simp only [mkdirChain, if_neg h1, if_neg h2, if_pos h3]
            obtain ⟨hf, added, hd, hmem⟩ :=
              ih { fs with dirs := fs.dirs ++ [p] } o.tail
            rw [he]
            refine ⟨hf, p :: added, ?_, ?_⟩
            · rw [hd]
              simp
            · intro d hdm
              rcases List.mem_cons.mp hdm with rfl | hdm
              · exact List.mem_cons_self _ _
              · exact List.mem_cons_of_mem _ (hmem d hdm)
          · have he : mkdirChain fs o (p :: rest) = (fs, o.tail, false) := by
              simp only [mkdirChain, if_neg h1, if_neg h2, if_neg h3]
            rw [he]
            exact ⟨rfl, [], by simp, by simp⟩

theorem touch_eq_of_not_exists (fs : FS) (o : List Bool)
    (path : List (List Char)) (hex : ¬ fsExists fs path)
    {fs1 : FS} {o1 : List Bool} {ok1 : Bool}
    (hm : mkdirChain fs o (prefixesOf path.dropLast) = (fs1, o1, ok1)) :
    onTouchSubmitted fs o path =
      if ok1 then
        if o1.headD true then
          { fs := { fs1 with files := fs1.files ++ [path] },
            notes := [Severity.information], rescan := true }
        else { fs := fs1, notes := [Severity.error], rescan := false }
      else { fs := fs1, notes := [Severity.error], rescan := false } := by
  simp only [onTouchSubmitted, if_neg hex, hm]

theorem touch_cases (fs : FS) (o : List Bool) (path : List (List Char)) :
    (onTouchSubmitted fs o path
        = { fs := fs, notes := [Severity.warning], rescan := false })
    ∨ ((onTouchSubmitted fs o path).notes = [Severity.information]
        ∧ (onTouchSubmitted fs o path).rescan = true)
    ∨ ((onTouchSubmitted fs o path).notes = [Severity.error]
        ∧ (onTouchSubmitted fs o path).rescan = false
        ∧ (onTouchSubmitted fs o path).fs.files = fs.files
        ∧ ∃ added, (onTouchSubmitted fs o path).fs.dirs = fs.dirs ++ added
            ∧ ∀ d ∈ added, d ∈ prefixesOf path.dropLast) := by
  by_cases hex : fsExists fs path
  · exact Or.inl (by simp only [onTouchSubmitted, if_pos hex])
  · obtain ⟨hf, added, hd, hmem⟩ := mkdirChain_shape (prefixesOf path.dropLast) fs o
    rcases hm : mkdirChain fs o (prefixesOf path.dropLast) with ⟨fs1, o1, ok1⟩
    rw [hm] at hf hd
    have hf1 : fs1.files = fs.files := hf
    have hd1 : fs1.dirs = fs.dirs ++ added := hd
    have he := touch_eq_of_not_exists fs o path hex hm
    cases ok1 with
    | false =>
        rw [he, if_neg (by simp)]
        exact Or.inr (Or.inr ⟨rfl, rfl, hf1, added, hd1, hmem⟩)
    | true =>
        cases hh : o1.headD true with
        | true =>
            rw [he, if_pos rfl, if_pos hh]
            exact Or.inr (Or.inl ⟨rfl, rfl⟩)
        | false =>
            rw [he, if_pos rfl, if_neg (by rw [hh]; simp)]
            exact Or.inr (Or.inr ⟨rfl, rfl, hf1, added, hd1, hmem⟩)

theorem rename_cases (fs : FS) (o : List Bool) (oldPath : List (List Char))
    (newName : List Char) :
    ((onRenameSubmitted fs o oldPath newName).rescan = true
      ∧ (onRenameSubmitted fs o oldPath newName).notes = [Severity.information])
    ∨ ((onRenameSubmitted fs o oldPath newName).rescan = false
      ∧ (onRenameSubmitted fs o oldPath newName).fs = fs) := by
  rw [onRenameSubmitted]
  split
  · exact Or.inr ⟨rfl, rfl⟩
  · split
    · exact Or.inr ⟨rfl, rfl⟩
    · split
      · exact Or.inl ⟨rfl, rfl⟩
      · exact Or.inr ⟨rfl, rfl⟩

theorem mkdir_cases (fs : FS) (o : List Bool) (curDir : List (List Char))
    (comps : List (List Char)) :
    (onMkdirSubmitted fs o curDir comps
        = { fs := fs, notes := [Severity.warning], rescan := false })
    ∨ ((onMkdirSubmitted fs o curDir comps).notes = [Severity.information]
        ∧ (onMkdirSubmitted fs o curDir comps).rescan = true)
    ∨ ((onMkdirSubmitted fs o curDir comps).notes = [Severity.error]
        ∧ (onMkdirSubmitted fs o curDir comps).rescan = false
        ∧ (onMkdirSubmitted fs o curDir comps).fs.files = fs.files
        ∧ ∃ added, (onMkdirSubmitted fs o curDir comps).fs.dirs = fs.dirs ++ added
            ∧ ∀ d ∈ added, d ∈ prefixesOf (curDir ++ comps)) := by
  by_cases hex : fsExists fs (curDir ++ comps)
  · exact Or.inl (by simp only [onMkdirSubmitted, if_pos hex])
  · obtain ⟨hf, added, hd, hmem⟩ :=
      mkdirChain_shape (prefixesOf (curDir ++ comps)) fs o
    rcases hm : mkdirChain fs o (prefixesOf (curDir ++ comps)) with ⟨fs1, o1, ok⟩
    rw [hm] at hf hd
    have hf1 : fs1.files = fs.files := hf
    have hd1 : fs1.dirs = fs.dirs ++ added := hd
    have he : onMkdirSubmitted fs o curDir comps =
        if ok then
          { fs := fs1, notes := [Severity.information], rescan := true }
        else { fs := fs1, notes := [Severity.error], rescan := false } := by
      simp only [onMkdirSubmitted, if_neg hex, hm]
    cases ok with
    | false =>
        rw [he, if_neg (by simp)]
        exact Or.inr (Or.inr ⟨rfl, rfl, hf1, added, hd1, hmem⟩)
    | true =>
        rw [he, if_pos rfl]
        exact Or.inr (Or.inl ⟨rfl, rfl⟩)

/-- C8 counterexample: touch of home/sub/f over a filesystem holding only
the directory home, with the mkdir of home/sub succeeding and the final
touch failing (oracle [true, false]): the handler reports an error and
does not re-scan, yet the filesystem is not what it was — the created
parent directory home/sub persists, so a failed operation did leave a
partial application behind. -/
theorem mutation_touch_partial_counterexample :
    (onTouchSubmitted { dirs := [[pstr "home"]], files := [] } [true, false]
        [pstr "home", pstr "sub", pstr "f"]).notes = [Severity.error]
    ∧ (onTouchSubmitted { dirs := [[pstr "home"]], files := [] } [true, false]
        [pstr "home", pstr "sub", pstr "f"]).rescan = false
    ∧ (onTouchSubmitted { dirs := [[pstr "home"]], files := [] } [true, false]
        [pstr "home", pstr "sub", pstr "f"]).fs
      ≠ { dirs := [[pstr "home"]], files := [] } := by
  refine ⟨by decide, by decide, by decide⟩

/-- C8 (amended): a re-scan is triggered exactly by a successful mutation
(the success notification); a failed rename leaves the filesystem
exactly as before; a failed touch or mkdir leaves the files and the view
state (no re-scan) exactly as before and can change the filesystem only
by having created missing parent directories along the target path,
which are not rolled back. -/
theorem mutation_rescan_only_after_success :
    (∀ fs o path, (onTouchSubmitted fs o path).rescan = true →
        (onTouchSubmitted fs o path).notes = [Severity.information])
    ∧ (∀ fs o oldPath newName,
        (onRenameSubmitted fs o oldPath newName).rescan = true →
        (onRenameSubmitted fs o oldPath newName).notes = [Severity.information])
    ∧ (∀ fs o cur comps, (onMkdirSubmitted fs o cur comps).rescan = true →
        (onMkdirSubmitted fs o cur comps).notes = [Severity.information])
    ∧ (∀ fs o oldPath newName,
        (onRenameSubmitted fs o oldPath newName).rescan = false →
        (onRenameSubmitted fs o oldPath newName).fs = fs)
    ∧ (∀ fs o path, (onTouchSubmitted fs o path).rescan = false →
        (onTouchSubmitted fs o path).fs.files = fs.files
        ∧ ∃ added, (onTouchSubmitted fs o path).fs.dirs = fs.dirs ++ added
            ∧ ∀ d ∈ added, d ∈ prefixesOf path.dropLast)
    ∧ (∀ fs o cur comps, (onMkdirSubmitted fs o cur comps).rescan = false →
        (onMkdirSubmitted fs o cur comps).fs.files = fs.files
        ∧ ∃ added, (onMkdirSubmitted fs o cur comps).fs.dirs = fs.dirs ++ added
            ∧ ∀ d ∈ added, d ∈ prefixesOf (cur ++ comps)) := by
  refine ⟨?_, ?_, ?_, ?_, ?_, ?_⟩
  · intro fs o path h
    rcases touch_cases fs o path with hc | hc | hc
    · rw [hc] at h
      exact absurd h (by simp)
    · exact hc.1
    · rw [hc.2.1] at h
      exact absurd h (by simp)
  · intro fs o oldPath newName h
    rcases rename_cases fs o oldPath newName with hc | hc
    · exact hc.2
    · rw [hc.1] at h
      exact absurd h (by simp)
  · intro fs o cur comps h
    rcases mkdir_cases fs o cur comps with hc | hc | hc
    · rw [hc] at h
      exact absurd h (by simp)
    · exact hc.1
    · rw [hc.2.1] at h
      exact absurd h (by simp)
  · intro fs o oldPath newName h
    rcases rename_cases fs o oldPath newName with hc | hc
    · rw [hc.1] at h
      exact absurd h (by simp)
    · exact hc.2
  · intro fs o path h
    rcases touch_cases fs o path with hc | hc | hc
    · rw [hc]
      exact ⟨rfl, [], by simp, by simp⟩
    · rw [hc.2] at h
      exact absurd h (by simp)
    · exact ⟨hc.2.2.1, hc.2.2.2⟩
  · intro fs o cur comps h
    rcases mkdir_cases fs o cur comps with hc | hc | hc
    · rw [hc]
      exact ⟨rfl, [], by simp, by simp⟩
    · rw [hc.2] at h
      exact absurd h (by simp)
    · exact ⟨hc.2.2.1, hc.2.2.2⟩

/-- Witness for mutation_rescan_only_after_success: a failed rename
(oracle [false]) leaves the filesystem untouched. -/
theorem mutation_rescan_only_after_success_witness :
    (onRenameSubmitted { dirs := [], files := [[pstr "x"]] } [false]
        [pstr "x"] (pstr "y")).fs
      = { dirs := [], files := [[pstr "x"]] } :=
  mutation_rescan_only_after_success.2.2.2.1
    { dirs := [], files := [[pstr "x"]] } [false] [pstr "x"] (pstr "y")
    (by decide)

/-- C10: when the destination of touch, rename or mkdir already exists
the handler changes nothing, emits exactly one warning notification and
does not re-scan; rename additionally rejects, with an error and no
change, a new name containing a path separator. -/
theorem mutation_never_overwrites :
    (∀ fs o path, fsExists fs path →
        onTouchSubmitted fs o path
          = { fs := fs, notes := [Severity.warning], rescan := false })
    ∧ (∀ fs o oldPath newName, ¬('/' ∈ newName ∨ '\\' ∈ newName) →
        fsExists fs (oldPath.dropLast ++ [newName]) →
        onRenameSubmitted fs o oldPath newName
          = { fs := fs, notes := [Severity.warning], rescan := false })
    ∧ (∀ fs o oldPath newName, ('/' ∈ newName ∨ '\\' ∈ newName) →
        onRenameSubmitted fs o oldPath newName
          = { fs := fs, notes := [Severity.error], rescan := false })
    ∧ (∀ fs o cur comps, fsExists fs (cur ++ comps) →
        onMkdirSubmitted fs o cur comps
          = { fs := fs, notes := [Severity.warning], rescan := false }) := by
  refine ⟨?_, ?_, ?_, ?_⟩
  · intro fs o path hex
    simp only [onTouchSubmitted, if_pos hex]
  · intro fs o oldPath newName hsep hex
    simp only [onRenameSubmitted, if_neg hsep, if_pos hex]
  · intro fs o oldPath newName hsep
    simp only [onRenameSubmitted, if_pos hsep]
  · intro fs o cur comps hex
    simp only [onMkdirSubmitted, if_pos hex]

/-- Witness for mutation_never_overwrites: touching an existing file only
warns. -/
theorem mutation_never_overwrites_witness :
    onTouchSubmitted { dirs := [], files := [[pstr "a"]] } [] [pstr "a"]
      = { fs := { dirs := [], files := [[pstr "a"]] },
          notes := [Severity.warning], rescan := false } :=
  mutation_never_overwrites.1 { dirs := [], files := [[pstr "a"]] } [] [pstr "a"]
    (by decide)
